import Mathlib

/-!
Shallow embedding of the sudoku solving engine from src/app/Sudoku.ts
(class ClassicSudoku).  The board is a fixed 9x9 grid of cells; the
engine runs convergence passes, falls back to guessing with
snapshot-based rollback, and validates by duplicate detection.

The Cell primitive and the strategy classes are external collaborators
(their sources are not part of the repository snapshot); their
operations are modelled from the spec and marked as such.  Everything
about `ClassicSudoku` itself is translated directly from Sudoku.ts.
-/

namespace SudokuModel

/-- Modelled from the spec: the Cell storage primitive (Cell.ts is not in
the snapshot).  A cell holds its immutable coordinates, an optional
assigned value (`none` plays the role of DEFAULT_CELL_VALUE, the absent
value), the list of remaining candidate values, and a validity flag
(default true). -/
structure Cell where
  row : Nat
  col : Nat
  value : Option Nat
  possibleValues : List Nat
  isValid : Bool
deriving DecidableEq, Repr

/-- Modelled from the spec: hasValue() is true iff an assigned value is present. -/
def Cell.hasValue (c : Cell) : Bool := c.value.isSome

/-- Modelled from the spec: setValue(v) stores the assigned value, touching nothing else. -/
def Cell.setValue (c : Cell) (v : Option Nat) : Cell := { c with value := v }

/-- Modelled from the spec: setPossibleValues(vs) replaces the candidate set
(copy semantics: the spec requires candidate sets to be values, never aliased). -/
def Cell.setPossibleValues (c : Cell) (l : List Nat) : Cell := { c with possibleValues := l }

/-- Modelled from the spec: setIsValid(b) writes the validity flag. -/
def Cell.setIsValid (c : Cell) (b : Bool) : Cell := { c with isValid := b }

/-- Modelled from the spec: fill(v) assigns and clears the candidates.  The
argument is optional because the engine can pass an absent value through
(getPossibleValues()[0] of an empty list). -/
def Cell.fillOpt (c : Cell) (v : Option Nat) : Cell :=
  { c with value := v, possibleValues := [] }

/-- Modelled from the spec: fill with a definite value. -/
def Cell.fill (c : Cell) (v : Nat) : Cell := c.fillOpt (some v)

/-- Modelled from the spec: a freshly constructed Cell is unfilled, carries its
coordinates, all nine candidates and a true validity flag. -/
def Cell.newCell (r c : Nat) : Cell :=
  ⟨r, c, none, (List.range 9).map (· + 1), true⟩

/-- A grid position: row index and column index, both 0..8. -/
abbrev Pos := Fin 9 × Fin 9

/-- The ClassicSudoku board state: the 9x9 grid of cells plus the configured
inter-step delay.  (The delay never influences board contents; it is carried
because clone() copies it.) -/
structure ClassicSudoku where
  timeoutMs : Nat
  cells : Fin 9 → Fin 9 → Cell
deriving DecidableEq

/-- Cell lookup at a position (this.cells[rowIndex][columnIndex]). -/
def ClassicSudoku.cell (b : ClassicSudoku) (p : Pos) : Cell := b.cells p.1 p.2

/-- In-place mutation of one grid slot, rendered functionally: the board with
position p replaced by cell c. -/
def ClassicSudoku.setCell (b : ClassicSudoku) (p : Pos) (c : Cell) : ClassicSudoku :=
  { b with cells := fun i j => if (i, j) = p then c else b.cells i j }

/-- Row-major enumeration of all 81 grid positions, as the nested
for-loops and this.cells.flatMap(c => c) traverse them. -/
def allPositions : List Pos :=
  (List.finRange 9).flatMap (fun i => (List.finRange 9).map (fun j => (i, j)))

/-- The positions of row i (this.cells[rowIndex]). -/
def rowPositions (i : Fin 9) : List Pos :=
  (List.finRange 9).map (fun j => (i, j))

/-- The positions of column j (getColumns()[columnIndex]). -/
def colPositions (j : Fin 9) : List Pos :=
  (List.finRange 9).map (fun i => (i, j))

/-- getSquareIndexes: the start of the 3-band containing the index
([0,1,2] -> 0, [3,4,5] -> 3, [6,7,8] -> 6). -/
def squareStart (i : Fin 9) : Nat :=
  if i.val = 0 ∨ i.val = 1 ∨ i.val = 2 then 0
  else if i.val = 3 ∨ i.val = 4 ∨ i.val = 5 then 3
  else 6

/-- The position inside the 3-band starting at squareStart i, offset d. -/
def bandPos (i : Fin 9) (d : Fin 3) : Fin 9 :=
  ⟨squareStart i + d.val, by
    have h2 := d.isLt
    unfold squareStart
    split
    · omega
    · split <;> omega⟩

/-- getSquare(rowIndex, columnIndex) flattened row-major: the nine positions
of the 3x3 box containing the given position. -/
def squarePositions (p : Pos) : List Pos :=
  (List.finRange 3).flatMap (fun dr =>
    (List.finRange 3).map (fun dc => (bandPos p.1 dr, bandPos p.2 dc)))

/-- The nine rows, in order, as passed to validateRanges. -/
def rowsList : List (List Pos) := (List.finRange 9).map rowPositions

/-- The nine columns, in order, as produced by getColumns(). -/
def colsList : List (List Pos) := (List.finRange 9).map colPositions

/-- The nine boxes in the literal order of getSquares(). -/
def squaresList : List (List Pos) :=
  [squarePositions ((0 : Fin 9), (0 : Fin 9)), squarePositions ((0 : Fin 9), (3 : Fin 9)),
   squarePositions ((0 : Fin 9), (6 : Fin 9)), squarePositions ((3 : Fin 9), (0 : Fin 9)),
   squarePositions ((3 : Fin 9), (3 : Fin 9)), squarePositions ((3 : Fin 9), (6 : Fin 9)),
   squarePositions ((6 : Fin 9), (0 : Fin 9)), squarePositions ((6 : Fin 9), (3 : Fin 9)),
   squarePositions ((6 : Fin 9), (6 : Fin 9))]

/-- isDuplicated(cell, cells): more than one cell of the range carries the
same assigned value as the given cell. -/
def isDuplicated (b : ClassicSudoku) (c : Cell) (range : List Pos) : Bool :=
  decide (1 < ((range.map b.cell).filter (fun c2 => c2.value == c.value)).length)

/-- The body of the inner forEach of validateRanges, for one cell of a
range: skip it when it has no value or is already flagged invalid, otherwise
recompute its flag from duplicate detection against the whole range. -/
def valStep (range : List Pos) (b' : ClassicSudoku) (p : Pos) : ClassicSudoku :=
  if (b'.cell p).value = none ∨ (b'.cell p).isValid = false then b'
  else b'.setCell p ((b'.cell p).setIsValid (!(isDuplicated b' (b'.cell p) range)))

/-- One forEach body of validateRanges: process every cell of the range in
order. -/
def validateRange (b : ClassicSudoku) (range : List Pos) : ClassicSudoku :=
  range.foldl (valStep range) b

/-- validateRanges(ranges): sequentially validate each range. -/
def validateRanges (b : ClassicSudoku) (rs : List (List Pos)) : ClassicSudoku :=
  rs.foldl validateRange b

/-- The initial forEach of validate(): every cell's flag reset to true. -/
def resetValid (b : ClassicSudoku) : ClassicSudoku :=
  { b with cells := fun i j => (b.cells i j).setIsValid true }

/-- validate(): reset all flags, then validate rows, columns and squares. -/
def ClassicSudoku.validate (b : ClassicSudoku) : ClassicSudoku :=
  validateRanges (validateRanges (validateRanges (resetValid b) rowsList) colsList) squaresList

/-- isValid(): no cell is flagged invalid. -/
def ClassicSudoku.isValid (b : ClassicSudoku) : Bool :=
  (allPositions.filter (fun p => !(b.cell p).isValid)).length == 0

/-- solved(): no cell is unfilled. -/
def ClassicSudoku.solved (b : ClassicSudoku) : Bool :=
  (allPositions.filter (fun p => !(b.cell p).hasValue)).length == 0

/-- emptyField(): the fresh grid built by the constructor. -/
def emptyField : Fin 9 → Fin 9 → Cell := fun i j => Cell.newCell i.val j.val

/-- clone(): a new ClassicSudoku (fresh cells from the constructor), then for
every slot setValue with the source value and setPossibleValues with the
source candidates, finally copying timeoutMs. -/
def ClassicSudoku.clone (b : ClassicSudoku) : ClassicSudoku :=
  { timeoutMs := b.timeoutMs,
    cells := fun i j =>
      ((emptyField i j).setValue ((b.cells i j).value)).setPossibleValues
        ((b.cells i j).possibleValues) }

/-- The loop body of removeFromPossibleValues for one unfilled cell: when the
value is among its candidates, filter it out; when exactly one candidate
remains after filtering, fill the cell with it instead. -/
def rfpvStep (value : Nat) (b' : ClassicSudoku) (p : Pos) : ClassicSudoku :=
  if value ∈ (b'.cell p).possibleValues then
    match (b'.cell p).possibleValues.filter (fun v => v ≠ value) with
    | [x] => b'.setCell p ((b'.cell p).fill x)
    | f => b'.setCell p ((b'.cell p).setPossibleValues f)
  else b'

/-- removeFromPossibleValues(value, range): over the cells of the range that
were unfilled when the call started, drop the value from the candidate set;
when exactly one candidate remains, fill the cell with it instead. -/
def removeFromPossibleValues (value : Nat) (range : List Pos) (b : ClassicSudoku) :
    ClassicSudoku :=
  (range.filter (fun p => !(b.cell p).hasValue)).foldl (rfpvStep value) b

/-- Modelled from the spec: a deduction strategy's solve(cell, row, column,
square) inspects the target cell and its peer groups and returns the
(possibly mutated) target cell together with the changed flag; strategies
have no side effects beyond the target cell.  The concrete strategy classes
are not part of the snapshot, so the engine is parametrised over them. -/
abbrev Strategy := Cell → List Cell → List Cell → List Cell → Cell × Bool

/-- The cells of a range, as the arrays handed to strategies. -/
def rangeCells (b : ClassicSudoku) (r : List Pos) : List Cell := r.map b.cell

/-- The auto-fill check of the cell loop: a lone candidate is assigned at
once (getPossibleValues()[0] of the singleton list) and counts as a change. -/
def autofill (b : ClassicSudoku) (p : Pos) : ClassicSudoku × Bool :=
  if (b.cell p).possibleValues.length = 1 then
    (b.setCell p ((b.cell p).fillOpt (b.cell p).possibleValues.head?), true)
  else (b, false)

/-- One strategy application of the strategies.map(...).some(...) chain: the
strategy (a pure function, so its two occurrences below are the single call
of the source) rewrites the target cell, and its changed flag is or-ed in. -/
def stratStep (p : Pos) (acc : ClassicSudoku × Bool) (strat : Strategy) :
    ClassicSudoku × Bool :=
  (acc.1.setCell p (strat (acc.1.cell p) (rangeCells acc.1 (rowPositions p.1))
      (rangeCells acc.1 (colPositions p.2)) (rangeCells acc.1 (squarePositions p))).1,
   acc.2 || (strat (acc.1.cell p) (rangeCells acc.1 (rowPositions p.1))
      (rangeCells acc.1 (colPositions p.2)) (rangeCells acc.1 (squarePositions p))).2)

/-- Apply every strategy in their fixed order to the cell at p. -/
def strategiesApplied (strats : List Strategy) (p : Pos) (b : ClassicSudoku) :
    ClassicSudoku × Bool :=
  strats.foldl (stratStep p) (b, false)

/-- The propagation step after the cell became assigned: remove its value
from the candidate sets across its row, then its column, then its square. -/
def propagate (b : ClassicSudoku) (p : Pos) : ClassicSudoku :=
  match (b.cell p).value with
  | some v =>
      removeFromPossibleValues v (squarePositions p)
        (removeFromPossibleValues v (colPositions p.2)
          (removeFromPossibleValues v (rowPositions p.1) b))
  | none => b

/-- The body of the cell-by-cell loop of solveAsPossible for one position:
skip filled cells; auto-fill a single candidate; apply every strategy in
order; if the cell is now assigned, propagate the value out of the candidate
sets of its row, column and square.  Returns the new board and this cell's
contribution to hasChanges (the auto-fill assignment or any strategy
reporting a change). -/
def iterateCell (strats : List Strategy) (b : ClassicSudoku) (p : Pos) :
    ClassicSudoku × Bool :=
  if (b.cell p).hasValue then (b, false)
  else
    (propagate (strategiesApplied strats p (autofill b p).1).1 p,
     (autofill b p).2 || (strategiesApplied strats p (autofill b p).1).2)

/-- A hypothesis record: the pre-guess snapshot, the guessed position and the
guessed value.  The coordinates recorded by the code are the cell's own
stored coordinates, which by the board invariant coincide with its grid
position. -/
structure Suggestion where
  snapshot : ClassicSudoku
  row : Fin 9
  col : Fin 9
  number : Option Nat

/-- The notification channel's messages, abstracted to their identity. -/
inductive Notif where
  | invalidInput
  | mistakes
  | couldNotSolve
  | solvedMsg
  | suggestMsg (r c : Fin 9) (v : Option Nat)
  | restoreMsg
deriving DecidableEq, Repr

/-- The engine's run state: the live board, the hypothesis stack, and the
lifecycle flags. -/
structure EngineState where
  board : ClassicSudoku
  suggestions : List Suggestion
  running : Bool
  paused : Bool

/-- The candidate count of the cell at a position. -/
def pvLen (b : ClassicSudoku) (p : Pos) : Nat := (b.cell p).possibleValues.length

/-- The reduce((a, b) => a.getPossibleValues().length < b.getPossibleValues().length ? a : b)
selection over the unfilled cells: keeps the accumulator only on strictly
fewer candidates. -/
def chooseCand (b : ClassicSudoku) (p0 : Pos) (rest : List Pos) : Pos :=
  rest.foldl (fun a q => if pvLen b a < pvLen b q then a else q) p0

/-- The unfilled positions in row-major order (this.cells.flatMap(c => c).filter(!hasValue)). -/
def unfilledList (b : ClassicSudoku) : List Pos :=
  allPositions.filter (fun p => !(b.cell p).hasValue)

/-- The guessing fallback block of solveAsPossible: pick the reduce-selected
unfilled cell, take getPossibleValues()[0] as the guess, push the hypothesis
(snapshot via clone, coordinates, value), fill the cell and report a change.
The empty case cannot be reached by the engine (the block runs only on
unsolved boards); the source reduce would throw there. -/
def guessStep (s : EngineState) : EngineState × Bool × List Notif :=
  match unfilledList s.board with
  | [] => (s, false, [])
  | p0 :: rest =>
    ({ s with
        board := s.board.setCell (chooseCand s.board p0 rest)
          ((s.board.cell (chooseCand s.board p0 rest)).fillOpt
            ((s.board.cell (chooseCand s.board p0 rest)).possibleValues.head?)),
        suggestions := s.suggestions ++
          [⟨s.board.clone, (chooseCand s.board p0 rest).1, (chooseCand s.board p0 rest).2,
            (s.board.cell (chooseCand s.board p0 rest)).possibleValues.head?⟩] },
     true,
     [Notif.suggestMsg (chooseCand s.board p0 rest).1 (chooseCand s.board p0 rest).2
        ((s.board.cell (chooseCand s.board p0 rest)).possibleValues.head?)])

/-- The cells = snapshot.getCells() assignment of the rollback block: the
validated live board with its whole grid replaced by the snapshot's grid
(the timeout is the live board's own). -/
def restoredBoard (s : EngineState) (sug : Suggestion) : ClassicSudoku :=
  { s.board.validate with cells := sug.snapshot.cells }

/-- The rollback block at the end of a pass: when at least one hypothesis
exists, re-validate; if the board is invalid, pop the most recent hypothesis,
replace the live cells with its snapshot's cells and remove the guessed value
from the candidate set of the guessed cell. -/
def rollbackStep (s : EngineState) : EngineState × List Notif :=
  if 0 < s.suggestions.length then
    if (s.board.validate).isValid then ({ s with board := s.board.validate }, [])
    else
      match s.suggestions.getLast? with
      | none => ({ s with board := s.board.validate }, [])
      | some sug =>
        ({ s with
            board := (restoredBoard s sug).setCell (sug.row, sug.col)
              (((restoredBoard s sug).cell (sug.row, sug.col)).setPossibleValues
                (((restoredBoard s sug).cell (sug.row, sug.col)).possibleValues.filter
                  (fun v => some v ≠ sug.number))),
            suggestions := s.suggestions.dropLast },
         [Notif.restoreMsg])
  else (s, [])

/-- The main cell-by-cell loop of a pass.  The stop flag is checked before
every cell; in this synchronous model the flag cannot change mid-loop, so a
false flag skips the whole sweep, exactly as the break does.  The pause
polling wait suspends without touching board state and is therefore not
modelled. -/
def cellLoop (strats : List Strategy) (s : EngineState) : ClassicSudoku × Bool :=
  allPositions.foldl (fun acc p =>
    if s.running then
      let r := iterateCell strats acc.1 p
      (r.1, acc.2 || r.2)
    else acc) (s.board, false)

/-- The stalled-board fallback sweep applying BySquareIntersectionStrategy
(a fresh, stateless instance per cell) to every unfilled cell. -/
def intersectionLoop (interStrat : Strategy) (b : ClassicSudoku) : ClassicSudoku × Bool :=
  allPositions.foldl (fun acc p =>
    if (acc.1.cell p).hasValue then acc
    else
      let res := interStrat (acc.1.cell p) (rangeCells acc.1 (rowPositions p.1))
        (rangeCells acc.1 (colPositions p.2)) (rangeCells acc.1 (squarePositions p))
      (acc.1.setCell p res.1, acc.2 || res.2)) (b, false)

/-- One iteration of the do-while body of solveAsPossible: the cell loop, the
two stall fallbacks, and the rollback block; returns the final state, the
pass's hasChanges and the notifications emitted. -/
def enginePass (strats : List Strategy) (interStrat : Strategy) (s : EngineState) :
    EngineState × Bool × List Notif :=
  let r1 := cellLoop strats s
  let r2 := if !r1.2 && !r1.1.solved then intersectionLoop interStrat r1.1 else (r1.1, false)
  let chA := r1.2 || r2.2
  let s2 := { s with board := r2.1 }
  let r3 := if !chA && !r2.1.solved then guessStep s2 else (s2, false, [])
  let ch := chA || r3.2.1
  let r4 := rollbackStep r3.1
  (r4.1, ch, r3.2.2 ++ r4.2)

/-- solveAsPossible: the do-while convergence loop, rendered with explicit
fuel (the loop body runs while running, unsolved and changing). -/
def solveAsPossible (strats : List Strategy) (interStrat : Strategy) :
    Nat → EngineState → EngineState × List Notif
  | 0, s => (s, [])
  | Nat.succ fuel, s =>
    let r := enginePass strats interStrat s
    if r.1.running && !r.1.board.solved && r.2.1 then
      let r2 := solveAsPossible strats interStrat fuel r.1
      (r2.1, r.2.2 ++ r2.2)
    else (r.1, r.2.2)

/-- solve(onCellUpdated): set running, validate; on an invalid input board
report the error and return at once (note: without clearing the running
flag); otherwise run solveAsPossible, re-validate, report the outcome and
clear the running flag. -/
def solve (strats : List Strategy) (interStrat : Strategy) (fuel : Nat) (s : EngineState) :
    EngineState × List Notif :=
  let s1 := { s with running := true }
  let b1 := s1.board.validate
  if !b1.isValid then ({ s1 with board := b1 }, [Notif.invalidInput])
  else
    let r := solveAsPossible strats interStrat fuel { s1 with board := b1 }
    let b2 := r.1.board.validate
    let finalN := if b2.solved then Notif.solvedMsg
      else if !b2.isValid then Notif.mistakes
      else Notif.couldNotSolve
    ({ r.1 with board := b2, running := false }, r.2 ++ [finalN])

/-- The mutation-free projection of a cell: everything except the validity
flag.  Validation must preserve it. -/
def Cell.core (c : Cell) : Nat × Nat × Option Nat × List Nat :=
  (c.row, c.col, c.value, c.possibleValues)

/-- The net effect of one validation family on one cell, as established by
the fold analysis below: skip when unfilled or already invalid, otherwise
write the duplicate-freedom flag. -/
def procCell (b : ClassicSudoku) (c : Cell) (R : List Pos) : Cell :=
  if c.value = none ∨ c.isValid = false then c
  else c.setIsValid (!(isDuplicated b c R))

/-- A concrete input board whose row 0 carries the value 5 twice (cells
(0,0) and (0,1)); every other cell is unfilled with all nine candidates. -/
def twoFivesBoard : ClassicSudoku :=
  ⟨0, fun i j =>
    if i = (0 : Fin 9) ∧ (j = (0 : Fin 9) ∨ j = (1 : Fin 9)) then
      ⟨i.val, j.val, some 5, [], true⟩
    else Cell.newCell i.val j.val⟩

/-- The engine state holding the two-fives board before solve is called. -/
def twoFivesState : EngineState := ⟨twoFivesBoard, [], false, false⟩

/-- A pre-guess snapshot used to exercise the rollback block: an untouched
empty board. -/
def c1Snapshot : ClassicSudoku := ⟨0, emptyField⟩

/-- A concrete hypothesis record: the guess 3 at (0,0) over the snapshot. -/
def c1Sug : Suggestion := ⟨c1Snapshot, 0, 0, some 3⟩

/-- A concrete engine state whose live board is invalid while one hypothesis
is on the stack. -/
def c1State : EngineState := ⟨twoFivesBoard, [c1Sug], true, false⟩

/-- A concrete board exercising constraint propagation: (0,0) is unfilled
with the lone candidate 5, (0,1) is unfilled with candidates 1, 2, 5, and
every other cell is filled. -/
def c4Board : ClassicSudoku :=
  ⟨0, fun i j =>
    if i = (0 : Fin 9) ∧ j = (0 : Fin 9) then ⟨0, 0, none, [5], true⟩
    else if i = (0 : Fin 9) ∧ j = (1 : Fin 9) then ⟨0, 1, none, [1, 2, 5], true⟩
    else ⟨i.val, j.val, some ((i.val * 3 + j.val) % 9 + 1), [], true⟩⟩

/-- A concrete board exercising the guess tie-break: (0,0) and (0,1) are the
only unfilled cells, both with the two candidates 1 and 2; all other cells
are filled. -/
def c3Board : ClassicSudoku :=
  ⟨0, fun i j =>
    if i = (0 : Fin 9) ∧ (j = (0 : Fin 9) ∨ j = (1 : Fin 9)) then
      ⟨i.val, j.val, none, [1, 2], true⟩
    else ⟨i.val, j.val, some 9, [], true⟩⟩

/-- The engine state for the guess tie-break scenario. -/
def c3State : EngineState := ⟨c3Board, [], true, false⟩

/- ### Theorems -/

section Theorems

theorem setCell_cell_self (b : ClassicSudoku) (p : Pos) (c : Cell) :
    (b.setCell p c).cell p = c := by
  simp [ClassicSudoku.cell, ClassicSudoku.setCell]

theorem setCell_cell_ne (b : ClassicSudoku) (p q : Pos) (c : Cell) (h : q ≠ p) :
    (b.setCell p c).cell q = b.cell q := by
  simp only [ClassicSudoku.cell, ClassicSudoku.setCell]
  rw [if_neg]
  intro hc
  exact h ((Prod.mk.eta (p := q)).symm.trans hc)

theorem setCell_own (b : ClassicSudoku) (p : Pos) :
    b.setCell p (b.cell p) = b := by
  cases b with
  | mk t cs =>
    simp only [ClassicSudoku.setCell, ClassicSudoku.cell]
    congr 1
    funext i j
    split
    · rename_i h
      have h1 : p.1 = i := by rw [← h]
      have h2 : p.2 = j := by rw [← h]
      rw [← h1, ← h2]
    · rfl

theorem core_setIsValid (c : Cell) (v : Bool) : (c.setIsValid v).core = c.core := rfl

theorem value_of_core {c1 c2 : Cell} (h : c1.core = c2.core) : c1.value = c2.value := by
  have := congrArg (fun x : Nat × Nat × Option Nat × List Nat => x.2.2.1) h
  simpa [Cell.core] using this

theorem pv_of_core {c1 c2 : Cell} (h : c1.core = c2.core) :
    c1.possibleValues = c2.possibleValues := by
  have := congrArg (fun x : Nat × Nat × Option Nat × List Nat => x.2.2.2) h
  simpa [Cell.core] using this

theorem row_of_core {c1 c2 : Cell} (h : c1.core = c2.core) : c1.row = c2.row := by
  have := congrArg (fun x : Nat × Nat × Option Nat × List Nat => x.1) h
  simpa [Cell.core] using this

theorem col_of_core {c1 c2 : Cell} (h : c1.core = c2.core) : c1.col = c2.col := by
  have := congrArg (fun x : Nat × Nat × Option Nat × List Nat => x.2.1) h
  simpa [Cell.core] using this

theorem valStep_core (R : List Pos) (b : ClassicSudoku) (p q : Pos) :
    ((valStep R b p).cell q).core = (b.cell q).core := by
  unfold valStep
  split
  · rfl
  · by_cases h : q = p
    · subst h; rw [setCell_cell_self]; exact core_setIsValid _ _
    · rw [setCell_cell_ne _ _ _ _ h]

theorem valStep_cell_ne (R : List Pos) (b : ClassicSudoku) (p q : Pos) (h : q ≠ p) :
    (valStep R b p).cell q = b.cell q := by
  unfold valStep
  split
  · rfl
  · rw [setCell_cell_ne _ _ _ _ h]

theorem valFold_core (R : List Pos) (q : Pos) :
    ∀ (l : List Pos) (b : ClassicSudoku),
      ((l.foldl (valStep R) b).cell q).core = (b.cell q).core := by
  intro l
  induction l with
  | nil => intro b; rfl
  | cons p t ih =>
    intro b
    rw [List.foldl_cons, ih, valStep_core]

theorem valFold_not_mem (R : List Pos) (q : Pos) :
    ∀ (l : List Pos) (b : ClassicSudoku), q ∉ l →
      (l.foldl (valStep R) b).cell q = b.cell q := by
  intro l
  induction l with
  | nil => intro b _; rfl
  | cons p t ih =>
    intro b hq
    rw [List.foldl_cons, ih _ (fun hm => hq (List.mem_cons_of_mem _ hm)),
      valStep_cell_ne _ _ _ _ (fun he => hq (by rw [he]; exact List.mem_cons_self p t))]

theorem dup_len_congr (b1 b2 : ClassicSudoku) (c : Cell) :
    ∀ R : List Pos, (∀ p ∈ R, (b1.cell p).value = (b2.cell p).value) →
      ((R.map b1.cell).filter (fun c2 => c2.value == c.value)).length =
      ((R.map b2.cell).filter (fun c2 => c2.value == c.value)).length := by
  intro R
  induction R with
  | nil => intro _; rfl
  | cons p t ih =>
    intro h
    have hp : (b1.cell p).value = (b2.cell p).value := h p (List.mem_cons_self p t)
    have ht := ih (fun x hx => h x (List.mem_cons_of_mem _ hx))
    simp only [List.map_cons, List.filter_cons, hp]
    split
    · simp [ht]
    · exact ht

theorem isDuplicated_congr (b1 b2 : ClassicSudoku) (c : Cell) (R : List Pos)
    (h : ∀ p ∈ R, (b1.cell p).value = (b2.cell p).value) :
    isDuplicated b1 c R = isDuplicated b2 c R := by
  unfold isDuplicated
  rw [dup_len_congr b1 b2 c R h]

theorem isDuplicated_cell_congr (b : ClassicSudoku) (c1 c2 : Cell) (R : List Pos)
    (h : c1.value = c2.value) :
    isDuplicated b c1 R = isDuplicated b c2 R := by
  unfold isDuplicated
  rw [h]

theorem procCell_congr (b1 b2 : ClassicSudoku) (c : Cell) (R : List Pos)
    (h : ∀ p ∈ R, (b1.cell p).value = (b2.cell p).value) :
    procCell b1 c R = procCell b2 c R := by
  unfold procCell
  rw [isDuplicated_congr b1 b2 c R h]

theorem valStep_cell_self (R : List Pos) (b : ClassicSudoku) (p : Pos) :
    (valStep R b p).cell p = procCell b (b.cell p) R := by
  unfold valStep procCell
  split
  · rfl
  · rw [setCell_cell_self]

theorem valRange_split (l1 l2 : List Pos) (q : Pos) (R : List Pos) (b : ClassicSudoku)
    (hR : R = l1 ++ q :: l2) (h1 : q ∉ l1) (h2 : q ∉ l2) :
    (validateRange b R).cell q = procCell b (b.cell q) R := by
  subst hR
  unfold validateRange
  rw [List.foldl_append, List.foldl_cons]
  set R : List Pos := l1 ++ q :: l2 with hRdef
  have hA : (l1.foldl (valStep R) b).cell q = b.cell q := valFold_not_mem R q l1 b h1
  have hAv : ∀ p, (((l1.foldl (valStep R) b)).cell p).value = (b.cell p).value :=
    fun p => value_of_core (valFold_core R p l1 b)
  rw [valFold_not_mem R q l2 _ h2, valStep_cell_self, hA,
    procCell_congr _ b _ R (fun p _ => hAv p)]

theorem valRanges_core (q : Pos) :
    ∀ (RS : List (List Pos)) (b : ClassicSudoku),
      ((validateRanges b RS).cell q).core = (b.cell q).core := by
  intro RS
  induction RS with
  | nil => intro b; rfl
  | cons R t ih =>
    intro b
    unfold validateRanges at *
    rw [List.foldl_cons, ih]
    exact valFold_core R q R b

theorem valRanges_value (q : Pos) (RS : List (List Pos)) (b : ClassicSudoku) :
    ((validateRanges b RS).cell q).value = (b.cell q).value :=
  value_of_core (valRanges_core q RS b)

theorem valRanges_not_mem (q : Pos) :
    ∀ (RS : List (List Pos)) (b : ClassicSudoku), (∀ R ∈ RS, q ∉ R) →
      (validateRanges b RS).cell q = b.cell q := by
  intro RS
  induction RS with
  | nil => intro b _; rfl
  | cons R t ih =>
    intro b h
    unfold validateRanges at *
    rw [List.foldl_cons, ih _ (fun r hr => h r (List.mem_cons_of_mem _ hr))]
    exact valFold_not_mem R q R b (h R (List.mem_cons_self R t))

theorem valRanges_family (q : Pos) :
    ∀ (RS : List (List Pos)) (b : ClassicSudoku) (r : List Pos),
      RS.Pairwise (fun r1 r2 => ∀ x ∈ r1, x ∉ r2) →
      (∀ r' ∈ RS, r'.Nodup) →
      r ∈ RS → q ∈ r →
      (validateRanges b RS).cell q = procCell b (b.cell q) r := by
  intro RS
  induction RS with
  | nil => intro b r _ _ hmem _; exact absurd hmem (List.not_mem_nil r)
  | cons R0 t ih =>
    intro b r hdisj hnodup hmem hq
    have hdisj0 : ∀ r2 ∈ t, ∀ x ∈ R0, x ∉ r2 := by
      intro r2 hr2 x hx
      exact (List.pairwise_cons.mp hdisj).1 r2 hr2 x hx
    by_cases hq0 : q ∈ R0
    · have hr0 : r = R0 := by
        rcases List.mem_cons.mp hmem with h | h
        · exact h
        · exact absurd hq (hdisj0 r h q hq0)
      subst hr0
      unfold validateRanges
      rw [List.foldl_cons]
      have hsplit := List.append_of_mem hq0
      rcases hsplit with ⟨l1, l2, hR⟩
      have hnd : r.Nodup := hnodup r (List.mem_cons_self r t)
      have h1 : q ∉ l1 := by
        rw [hR] at hnd
        rcases List.nodup_append.mp hnd with ⟨_, _, hdj⟩
        intro hql1
        exact hdj hql1 (List.mem_cons_self q l2)
      have h2 : q ∉ l2 := by
        rw [hR] at hnd
        rcases List.nodup_append.mp hnd with ⟨_, hnd2, _⟩
        exact (List.nodup_cons.mp hnd2).1
      have hstep : (validateRange b r).cell q = procCell b (b.cell q) r :=
        valRange_split l1 l2 q r b hR h1 h2
      have hrest : ∀ r' ∈ t, q ∉ r' := by
        intro r' hr'
        exact hdisj0 r' hr' q hq0
      show (validateRanges (validateRange b r) t).cell q = _
      rw [valRanges_not_mem q t _ hrest, hstep]
    · have hr : r ∈ t := by
        rcases List.mem_cons.mp hmem with h | h
        · exact absurd (h ▸ hq) hq0
        · exact h
      unfold validateRanges
      rw [List.foldl_cons]
      have heq : (validateRange b R0).cell q = b.cell q :=
        valFold_not_mem R0 q R0 b hq0
      have hvals : ∀ p, ((validateRange b R0).cell p).value = (b.cell p).value :=
        fun p => value_of_core (valFold_core R0 p R0 b)
      have := ih (validateRange b R0) r (List.pairwise_cons.mp hdisj).2
        (fun r' hr' => hnodup r' (List.mem_cons_of_mem _ hr')) hr hq
      show (validateRanges (validateRange b R0) t).cell q = _
      rw [this, heq, procCell_congr _ b _ r (fun p _ => hvals p)]

set_option maxRecDepth 40000

theorem mem_rowPositions_self : ∀ q : Pos, q ∈ rowPositions q.1 := by decide

theorem mem_colPositions_self : ∀ q : Pos, q ∈ colPositions q.2 := by decide

theorem mem_squarePositions_self : ∀ q : Pos, q ∈ squarePositions q := by decide

theorem rowPositions_mem : ∀ i : Fin 9, rowPositions i ∈ rowsList := by decide

theorem colPositions_mem : ∀ j : Fin 9, colPositions j ∈ colsList := by decide

theorem squarePositions_mem : ∀ q : Pos, squarePositions q ∈ squaresList := by decide

theorem rows_disj : rowsList.Pairwise (fun r1 r2 => ∀ x ∈ r1, x ∉ r2) := by decide

theorem cols_disj : colsList.Pairwise (fun r1 r2 => ∀ x ∈ r1, x ∉ r2) := by decide

theorem squares_disj : squaresList.Pairwise (fun r1 r2 => ∀ x ∈ r1, x ∉ r2) := by decide

theorem rows_nodup : ∀ r ∈ rowsList, List.Nodup r := by decide

theorem cols_nodup : ∀ r ∈ colsList, List.Nodup r := by decide

theorem squares_nodup : ∀ r ∈ squaresList, List.Nodup r := by decide

theorem rowPositions_nodup : ∀ i : Fin 9, (rowPositions i).Nodup := by decide

theorem colPositions_nodup : ∀ j : Fin 9, (colPositions j).Nodup := by decide

theorem squarePositions_nodup : ∀ q : Pos, (squarePositions q).Nodup := by decide

theorem mem_allPositions : ∀ q : Pos, q ∈ allPositions := by decide

theorem setIsValid_value (c : Cell) (v : Bool) : (c.setIsValid v).value = c.value := rfl

theorem setIsValid_isValid (c : Cell) (v : Bool) : (c.setIsValid v).isValid = v := rfl

theorem isDuplicated_setIsValid (b : ClassicSudoku) (c : Cell) (v : Bool) (R : List Pos) :
    isDuplicated b (c.setIsValid v) R = isDuplicated b c R :=
  isDuplicated_cell_congr b _ c R rfl

theorem procCell_chain (b : ClassicSudoku) (c : Cell) (R1 R2 R3 : List Pos) :
    (procCell b (procCell b (procCell b (c.setIsValid true) R1) R2) R3).isValid =
      !(c.value.isSome &&
        (isDuplicated b c R1 || isDuplicated b c R2 || isDuplicated b c R3)) := by
  rcases hn : c.value with _ | v
  · simp [procCell, setIsValid_value, setIsValid_isValid, hn]
  · cases hd1 : isDuplicated b c R1 <;> cases hd2 : isDuplicated b c R2 <;>
      cases hd3 : isDuplicated b c R3 <;>
      simp [procCell, setIsValid_value, setIsValid_isValid, isDuplicated_setIsValid,
        hn, hd1, hd2, hd3]

theorem validate_cell_flag (b : ClassicSudoku) (q : Pos) :
    ((b.validate).cell q).isValid =
      !((b.cell q).value.isSome &&
        (isDuplicated b (b.cell q) (rowPositions q.1) ||
         isDuplicated b (b.cell q) (colPositions q.2) ||
         isDuplicated b (b.cell q) (squarePositions q))) := by
  have h1 := valRanges_family q rowsList (resetValid b) (rowPositions q.1)
    rows_disj rows_nodup (rowPositions_mem q.1) (mem_rowPositions_self q)
  have h2 := valRanges_family q colsList (validateRanges (resetValid b) rowsList)
    (colPositions q.2) cols_disj cols_nodup (colPositions_mem q.2) (mem_colPositions_self q)
  have h3 := valRanges_family q squaresList
    (validateRanges (validateRanges (resetValid b) rowsList) colsList)
    (squarePositions q) squares_disj squares_nodup (squarePositions_mem q)
    (mem_squarePositions_self q)
  have hv0 : ∀ p : Pos, ((resetValid b).cell p).value = (b.cell p).value := fun _ => rfl
  have hv1 : ∀ p : Pos,
      ((validateRanges (resetValid b) rowsList).cell p).value = (b.cell p).value :=
    fun p => (valRanges_value p rowsList (resetValid b)).trans (hv0 p)
  have hv2 : ∀ p : Pos,
      ((validateRanges (validateRanges (resetValid b) rowsList) colsList).cell p).value =
        (b.cell p).value :=
    fun p => (valRanges_value p colsList _).trans (hv1 p)
  show ((validateRanges (validateRanges (validateRanges (resetValid b) rowsList) colsList)
    squaresList).cell q).isValid = _
  rw [h3, h2, h1]
  rw [procCell_congr (validateRanges (validateRanges (resetValid b) rowsList) colsList) b _
      (squarePositions q) (fun p _ => hv2 p),
    procCell_congr (validateRanges (resetValid b) rowsList) b _ (colPositions q.2)
      (fun p _ => hv1 p),
    procCell_congr (resetValid b) b _ (rowPositions q.1) (fun p _ => hv0 p)]
  rw [show (resetValid b).cell q = (b.cell q).setIsValid true from rfl]
  exact procCell_chain b (b.cell q) _ _ _

theorem validate_core (b : ClassicSudoku) (q : Pos) :
    ((b.validate).cell q).core = (b.cell q).core := by
  show ((validateRanges (validateRanges (validateRanges (resetValid b) rowsList) colsList)
    squaresList).cell q).core = _
  rw [valRanges_core, valRanges_core, valRanges_core]
  rfl

theorem isValid_iff_all (b : ClassicSudoku) :
    b.isValid = true ↔ ∀ p : Pos, (b.cell p).isValid = true := by
  unfold ClassicSudoku.isValid
  rw [beq_iff_eq, List.length_eq_zero]
  constructor
  · intro h p
    by_contra hc
    have hmem : p ∈ allPositions.filter (fun p => !(b.cell p).isValid) := by
      rw [List.mem_filter]
      refine ⟨mem_allPositions p, ?_⟩
      simp only [Bool.not_eq_true] at hc
      simp [hc]
    rw [h] at hmem
    exact absurd hmem (List.not_mem_nil p)
  · intro h
    rw [List.filter_eq_nil_iff]
    intro p _
    simp [h p]

/-- C7: validate() resets every cell's validity flag to true and then, family
by family (rows, columns, boxes), flags invalid exactly those cells that
carry an assigned value shared by more than one cell of their row, column or
box — the net effect of the skip-if-already-invalid sequencing; and isValid()
returns true iff no cell is flagged invalid. -/
theorem sudoku_c7_validate_duplicate_flags (b : ClassicSudoku) :
    (∀ q : Pos, ((b.validate).cell q).isValid = false ↔
      ((b.cell q).value.isSome = true ∧
        (isDuplicated b (b.cell q) (rowPositions q.1) = true ∨
         isDuplicated b (b.cell q) (colPositions q.2) = true ∨
         isDuplicated b (b.cell q) (squarePositions q) = true))) ∧
    ((b.validate).isValid = true ↔ ∀ q : Pos, ((b.validate).cell q).isValid = true) := by
  constructor
  · intro q
    rw [validate_cell_flag b q]
    cases hs : (b.cell q).value.isSome <;>
      cases h1 : isDuplicated b (b.cell q) (rowPositions q.1) <;>
      cases h2 : isDuplicated b (b.cell q) (colPositions q.2) <;>
      cases h3 : isDuplicated b (b.cell q) (squarePositions q) <;> simp
  · exact isValid_iff_all _

/-- C8: validate() is idempotent — after a second validate() every cell
carries the same validity flag as after the first. -/
theorem sudoku_c8_validate_idempotent (b : ClassicSudoku) (q : Pos) :
    ((b.validate.validate).cell q).isValid = ((b.validate).cell q).isValid := by
  rw [validate_cell_flag (b.validate) q, validate_cell_flag b q]
  have hv : ∀ p : Pos, ((b.validate).cell p).value = (b.cell p).value :=
    fun p => value_of_core (validate_core b p)
  rw [hv q,
    isDuplicated_cell_congr (b.validate) ((b.validate).cell q) (b.cell q)
      (rowPositions q.1) (hv q),
    isDuplicated_cell_congr (b.validate) _ (b.cell q) (colPositions q.2) (hv q),
    isDuplicated_cell_congr (b.validate) _ (b.cell q) (squarePositions q) (hv q),
    isDuplicated_congr (b.validate) b _ (rowPositions q.1) (fun p _ => hv p),
    isDuplicated_congr (b.validate) b _ (colPositions q.2) (fun p _ => hv p),
    isDuplicated_congr (b.validate) b _ (squarePositions q) (fun p _ => hv p)]

/-- C9: validate() never touches assigned values, candidate sets or
coordinates — it only reads values and writes validity flags. -/
theorem sudoku_c9_validate_frame (b : ClassicSudoku) (q : Pos) :
    ((b.validate).cell q).value = (b.cell q).value ∧
    ((b.validate).cell q).possibleValues = (b.cell q).possibleValues ∧
    ((b.validate).cell q).row = (b.cell q).row ∧
    ((b.validate).cell q).col = (b.cell q).col :=
  ⟨value_of_core (validate_core b q), pv_of_core (validate_core b q),
   row_of_core (validate_core b q), col_of_core (validate_core b q)⟩

theorem clone_cell (b : ClassicSudoku) (i j : Fin 9) :
    (b.clone).cells i j =
      ⟨i.val, j.val, (b.cells i j).value, (b.cells i j).possibleValues, true⟩ := rfl

/-- C10: a clone's cells all carry a true validity flag (clone copies only
values and candidates into fresh cells), so isValid() on a fresh clone is
always true, whatever the source's flags were. -/
theorem sudoku_c10_clone_flags_true (b : ClassicSudoku) :
    (∀ p : Pos, ((b.clone).cell p).isValid = true) ∧ (b.clone).isValid = true := by
  have h : ∀ p : Pos, ((b.clone).cell p).isValid = true := fun _ => rfl
  exact ⟨h, (isValid_iff_all _).mpr h⟩

/-- C5: clone() builds a fully independent copy — fresh cells at the grid
coordinates, with the source's assigned value and candidate set and the same
timeoutMs; and updating any one cell of the clone never changes any other
slot (the clone shares no cell with the source, so the source is untouched
by construction in this value-semantics embedding). -/
theorem sudoku_c5_clone_copy (b : ClassicSudoku) :
    (∀ i j : Fin 9,
      ((b.clone).cells i j).row = i.val ∧
      ((b.clone).cells i j).col = j.val ∧
      ((b.clone).cells i j).value = (b.cells i j).value ∧
      ((b.clone).cells i j).possibleValues = (b.cells i j).possibleValues) ∧
    (b.clone).timeoutMs = b.timeoutMs ∧
    (∀ (p : Pos) (c : Cell) (q : Pos), q ≠ p →
      ((b.clone).setCell p c).cell q = (b.clone).cell q) :=
  ⟨fun _ _ => ⟨rfl, rfl, rfl, rfl⟩, rfl, fun p c q h => setCell_cell_ne _ p q c h⟩

theorem solve_invalid (strats : List Strategy) (interStrat : Strategy) (fuel : Nat)
    (s : EngineState) (h : (s.board.validate).isValid = false) :
    solve strats interStrat fuel s =
      ({ s with running := true, board := s.board.validate }, [Notif.invalidInput]) := by
  unfold solve
  simp [h]

/-- C2: called on a board that already contains duplicate assigned values,
solve reports the invalid-input error and mutates no cell's value or
candidate set — but the early return skips the cleanup, so the run ends with
the running flag still true (the claim expects isRunning() = false). -/
theorem sudoku_c2_invalid_input_keeps_running (strats : List Strategy) (interStrat : Strategy)
    (fuel : Nat) :
    (solve strats interStrat fuel twoFivesState).1.running = true ∧
    (∀ p : Pos,
      ((solve strats interStrat fuel twoFivesState).1.board.cell p).value =
        (twoFivesState.board.cell p).value ∧
      ((solve strats interStrat fuel twoFivesState).1.board.cell p).possibleValues =
        (twoFivesState.board.cell p).possibleValues) ∧
    (solve strats interStrat fuel twoFivesState).2 = [Notif.invalidInput] := by
  have hinv : (twoFivesState.board.validate).isValid = false := by decide
  rw [solve_invalid strats interStrat fuel twoFivesState hinv]
  exact ⟨rfl,
    fun p => ⟨value_of_core (validate_core twoFivesState.board p),
      pv_of_core (validate_core twoFivesState.board p)⟩, rfl⟩

/-- C1: when a pass has left the board invalid while at least one hypothesis
is on the stack, the rollback block pops the most recent hypothesis and the
live board then equals that hypothesis's pre-guess snapshot at every cell,
except that the guessed value has been removed from the candidate set of the
guessed cell. -/
theorem sudoku_c1_rollback_restores_snapshot (s : EngineState) (ss : List Suggestion)
    (sug : Suggestion) (v : Nat)
    (hstack : s.suggestions = ss ++ [sug])
    (hinv : (s.board.validate).isValid = false)
    (hnum : sug.number = some v) :
    (rollbackStep s).1.suggestions = ss ∧
    (∀ q : Pos, q ≠ (sug.row, sug.col) →
      (rollbackStep s).1.board.cell q = sug.snapshot.cell q) ∧
    ((rollbackStep s).1.board.cell (sug.row, sug.col)).value =
      (sug.snapshot.cell (sug.row, sug.col)).value ∧
    ((rollbackStep s).1.board.cell (sug.row, sug.col)).isValid =
      (sug.snapshot.cell (sug.row, sug.col)).isValid ∧
    ((rollbackStep s).1.board.cell (sug.row, sug.col)).possibleValues =
      (sug.snapshot.cell (sug.row, sug.col)).possibleValues.filter (fun w => w ≠ v) ∧
    v ∉ ((rollbackStep s).1.board.cell (sug.row, sug.col)).possibleValues := by
  have hlen : 0 < s.suggestions.length := by rw [hstack]; simp
  have hlast : s.suggestions.getLast? = some sug := by
    rw [hstack, List.getLast?_concat]
  have hdrop : s.suggestions.dropLast = ss := by
    rw [hstack, List.dropLast_concat]
  unfold rollbackStep
  rw [if_pos hlen]
  split
  · rename_i hval
    rw [hinv] at hval
    exact absurd hval (by simp)
  · split
    · rename_i heq
      rw [hlast] at heq
      exact absurd heq (by simp)
    · rename_i sug' heq
      rw [hlast] at heq
      have hss : sug' = sug := (Option.some.inj heq).symm
      subst hss
      refine ⟨hdrop, ?_, ?_, ?_, ?_, ?_⟩
      · intro q hq
        rw [setCell_cell_ne _ _ _ _ hq]
        rfl
      · rw [setCell_cell_self]
        rfl
      · rw [setCell_cell_self]
        rfl
      · rw [setCell_cell_self]
        show ((restoredBoard s sug').cell (sug'.row, sug'.col)).possibleValues.filter
          (fun w => some w ≠ sug'.number) = _
        rw [hnum]
        refine List.filter_congr ?_
        intro a _
        simp
      · rw [setCell_cell_self]
        intro hmem
        have h2 := (List.mem_filter.mp hmem).2
        rw [hnum] at h2
        simp at h2

/-- Concrete run of the rollback theorem: an invalid live board with one
hypothesis on the stack; after rollback the guessed value 3 is gone from the
candidates of (0,0). -/
theorem sudoku_c1_rollback_witness :
    ((c1State.suggestions = [] ++ [c1Sug]) ∧
      ((c1State.board.validate).isValid = false) ∧ c1Sug.number = some 3) ∧
    3 ∉ ((rollbackStep c1State).1.board.cell (c1Sug.row, c1Sug.col)).possibleValues :=
  ⟨⟨rfl, by decide, rfl⟩,
   (sudoku_c1_rollback_restores_snapshot c1State [] c1Sug 3 rfl (by decide) rfl).2.2.2.2.2⟩

theorem rfpvStep_cell_ne (value : Nat) (b : ClassicSudoku) (p q : Pos) (h : q ≠ p) :
    (rfpvStep value b p).cell q = b.cell q := by
  unfold rfpvStep
  split
  · split <;> rw [setCell_cell_ne _ _ _ _ h]
  · rfl

theorem rfpvStep_filled (value : Nat) (b : ClassicSudoku) (p q : Pos)
    (h : (b.cell q).hasValue = true) :
    ((rfpvStep value b p).cell q).hasValue = true := by
  by_cases hqp : q = p
  · subst hqp
    unfold rfpvStep
    split
    · split
      · rw [setCell_cell_self]; rfl
      · rw [setCell_cell_self]; exact h
    · exact h
  · rw [rfpvStep_cell_ne _ _ _ _ hqp]; exact h

theorem rfpvStep_self (value : Nat) (b : ClassicSudoku) (p : Pos) :
    ((rfpvStep value b p).cell p).hasValue = false →
      value ∉ ((rfpvStep value b p).cell p).possibleValues := by
  unfold rfpvStep
  split
  · split
    · intro habs
      rw [setCell_cell_self] at habs
      exact absurd habs (by simp [Cell.fill, Cell.fillOpt, Cell.hasValue])
    · intro _ hm
      rw [setCell_cell_self] at hm
      simp [Cell.setPossibleValues, List.mem_filter] at hm
  · rename_i hmem
    intro _ hm
    exact hmem hm

theorem rfpvFold_cell_ne (value : Nat) (q : Pos) :
    ∀ (l : List Pos) (b : ClassicSudoku), q ∉ l →
      ((l.foldl (rfpvStep value) b)).cell q = b.cell q := by
  intro l
  induction l with
  | nil => intro b _; rfl
  | cons p t ih =>
    intro b hq
    rw [List.foldl_cons, ih _ (fun hm => hq (List.mem_cons_of_mem _ hm)),
      rfpvStep_cell_ne _ _ _ _ (fun he => hq (by rw [he]; exact List.mem_cons_self p t))]

theorem rfpvFold_T (value : Nat) (q : Pos) :
    ∀ (l : List Pos) (b : ClassicSudoku),
      ((b.cell q).hasValue = false → value ∉ (b.cell q).possibleValues) →
      ((l.foldl (rfpvStep value) b).cell q).hasValue = false →
        value ∉ ((l.foldl (rfpvStep value) b).cell q).possibleValues := by
  intro l
  induction l with
  | nil => intro b h; exact h
  | cons p t ih =>
    intro b h
    rw [List.foldl_cons]
    apply ih
    by_cases hqp : q = p
    · subst hqp; exact rfpvStep_self value b q
    · rw [rfpvStep_cell_ne _ _ _ _ hqp]; exact h

theorem rfpv_preserves_T (value : Nat) (range : List Pos) (b : ClassicSudoku) (q : Pos)
    (h : (b.cell q).hasValue = false → value ∉ (b.cell q).possibleValues) :
    ((removeFromPossibleValues value range b).cell q).hasValue = false →
      value ∉ ((removeFromPossibleValues value range b).cell q).possibleValues := by
  unfold removeFromPossibleValues
  exact rfpvFold_T value q _ b h

theorem rfpv_filled_unchanged (value : Nat) (range : List Pos) (b : ClassicSudoku) (q : Pos)
    (h : (b.cell q).hasValue = true) :
    (removeFromPossibleValues value range b).cell q = b.cell q := by
  unfold removeFromPossibleValues
  apply rfpvFold_cell_ne
  intro hmem
  have h2 := (List.mem_filter.mp hmem).2
  simp [h] at h2

theorem rfpv_T (value : Nat) (range : List Pos) (b : ClassicSudoku) (q : Pos)
    (hq : q ∈ range) :
    ((removeFromPossibleValues value range b).cell q).hasValue = false →
      value ∉ ((removeFromPossibleValues value range b).cell q).possibleValues := by
  by_cases hv : (b.cell q).hasValue = true
  · intro habs
    rw [rfpv_filled_unchanged value range b q hv, hv] at habs
    exact absurd habs (by simp)
  · have hvf : (b.cell q).hasValue = false := by
      revert hv; cases (b.cell q).hasValue <;> simp
    have hql : q ∈ range.filter (fun p => !(b.cell p).hasValue) :=
      List.mem_filter.mpr ⟨hq, by simp [hvf]⟩
    obtain ⟨l1, l2, hsplit⟩ := List.append_of_mem hql
    unfold removeFromPossibleValues
    rw [hsplit, List.foldl_append, List.foldl_cons]
    exact rfpvFold_T value q l2 _ (rfpvStep_self value _ q)

theorem propagate_some (b : ClassicSudoku) (p : Pos) (v : Nat)
    (hval : (b.cell p).value = some v) :
    propagate b p =
      removeFromPossibleValues v (squarePositions p)
        (removeFromPossibleValues v (colPositions p.2)
          (removeFromPossibleValues v (rowPositions p.1) b)) := by
  unfold propagate
  rw [hval]

theorem propagate_cell_self (b : ClassicSudoku) (p : Pos) (v : Nat)
    (hval : (b.cell p).value = some v) :
    (propagate b p).cell p = b.cell p := by
  rw [propagate_some b p v hval]
  have h1 : (b.cell p).hasValue = true := by simp [Cell.hasValue, hval]
  have e1 := rfpv_filled_unchanged v (rowPositions p.1) b p h1
  have h2 : ((removeFromPossibleValues v (rowPositions p.1) b).cell p).hasValue = true := by
    rw [e1]; exact h1
  have e2 := rfpv_filled_unchanged v (colPositions p.2) _ p h2
  have h3 : ((removeFromPossibleValues v (colPositions p.2)
      (removeFromPossibleValues v (rowPositions p.1) b)).cell p).hasValue = true := by
    rw [e2]; exact h2
  have e3 := rfpv_filled_unchanged v (squarePositions p) _ p h3
  rw [e3, e2, e1]

theorem propagate_T (b : ClassicSudoku) (p : Pos) (v : Nat)
    (hval : (b.cell p).value = some v) (q : Pos)
    (hq : q ∈ rowPositions p.1 ∨ q ∈ colPositions p.2 ∨ q ∈ squarePositions p)
    (hunf : ((propagate b p).cell q).hasValue = false) :
    v ∉ ((propagate b p).cell q).possibleValues := by
  rw [propagate_some b p v hval] at hunf ⊢
  rcases hq with hq | hq | hq
  · exact rfpv_preserves_T v (squarePositions p) _ q
      (rfpv_preserves_T v (colPositions p.2) _ q
        (rfpv_T v (rowPositions p.1) b q hq)) hunf
  · exact rfpv_preserves_T v (squarePositions p) _ q
      (rfpv_T v (colPositions p.2) _ q hq) hunf
  · exact rfpv_T v (squarePositions p) _ q hq hunf

theorem autofill_false (b : ClassicSudoku) (p : Pos) (h : (autofill b p).2 = false) :
    (autofill b p).1 = b := by
  unfold autofill at h ⊢
  split at h
  · simp at h
  · rename_i hc
    rw [if_neg hc]

theorem stratFold_false (p : Pos) :
    ∀ (strats : List Strategy) (acc : ClassicSudoku × Bool),
      (∀ st ∈ strats, ∀ c r co sq, (st c r co sq).2 = false → (st c r co sq).1 = c) →
      (strats.foldl (stratStep p) acc).2 = false →
      (strats.foldl (stratStep p) acc).1 = acc.1 ∧ acc.2 = false := by
  intro strats
  induction strats with
  | nil => intro acc _ h; exact ⟨rfl, h⟩
  | cons st t ih =>
    intro acc hcon h
    rw [List.foldl_cons] at h ⊢
    obtain ⟨h1, h2⟩ := ih (stratStep p acc st)
      (fun s hs => hcon s (List.mem_cons_of_mem _ hs)) h
    have h2' : (acc.2 ||
        (st (acc.1.cell p) (rangeCells acc.1 (rowPositions p.1))
          (rangeCells acc.1 (colPositions p.2)) (rangeCells acc.1 (squarePositions p))).2)
        = false := h2
    obtain ⟨hacc, hres2⟩ := Bool.or_eq_false_iff.mp h2'
    have hres : (st (acc.1.cell p) (rangeCells acc.1 (rowPositions p.1))
        (rangeCells acc.1 (colPositions p.2)) (rangeCells acc.1 (squarePositions p))).1 =
        acc.1.cell p :=
      hcon st (List.mem_cons_self _ _) _ _ _ _ hres2
    refine ⟨?_, hacc⟩
    rw [h1]
    show acc.1.setCell p _ = acc.1
    rw [hres, setCell_own]

/-- C4: when a cell becomes assigned during its iteration of the cell loop,
the assigned value ends up absent from the candidate set of every peer in
its row, column and box that is still unfilled, and the iteration's
hasChanges contribution is true (the assignment happened through the
auto-fill or through a strategy that reported a change). -/
theorem sudoku_c4_propagation (strats : List Strategy) (b : ClassicSudoku) (p : Pos) (v : Nat)
    (hcontract : ∀ st ∈ strats, ∀ c r co sq, (st c r co sq).2 = false → (st c r co sq).1 = c)
    (hunfilled : (b.cell p).hasValue = false)
    (hval : ((iterateCell strats b p).1.cell p).value = some v) :
    (iterateCell strats b p).2 = true ∧
    (∀ q : Pos, (q ∈ rowPositions p.1 ∨ q ∈ colPositions p.2 ∨ q ∈ squarePositions p) →
      ((iterateCell strats b p).1.cell q).hasValue = false →
      v ∉ ((iterateCell strats b p).1.cell q).possibleValues) := by
  have hif : iterateCell strats b p =
      (propagate (strategiesApplied strats p (autofill b p).1).1 p,
       (autofill b p).2 || (strategiesApplied strats p (autofill b p).1).2) := by
    unfold iterateCell
    rw [if_neg (by rw [hunfilled]; simp)]
  have hres1 : (iterateCell strats b p).1 =
      propagate (strategiesApplied strats p (autofill b p).1).1 p := by rw [hif]
  have hres2 : (iterateCell strats b p).2 =
      ((autofill b p).2 || (strategiesApplied strats p (autofill b p).1).2) := by rw [hif]
  rw [hres1] at hval
  rw [hres1, hres2]
  rcases h2 : ((strategiesApplied strats p (autofill b p).1).1.cell p).value with _ | w
  · have hid : propagate (strategiesApplied strats p (autofill b p).1).1 p =
        (strategiesApplied strats p (autofill b p).1).1 := by
      unfold propagate; rw [h2]
    rw [hid, h2] at hval
    exact absurd hval (by simp)
  · have hw : w = v := by
      have hcp := propagate_cell_self (strategiesApplied strats p (autofill b p).1).1 p w h2
      rw [hcp, h2] at hval
      exact Option.some.inj hval
    subst hw
    constructor
    · by_contra hfl
      have hfl2 : ((autofill b p).2 ||
          (strategiesApplied strats p (autofill b p).1).2) = false := by
        revert hfl
        cases ((autofill b p).2 || (strategiesApplied strats p (autofill b p).1).2) <;> simp
      obtain ⟨ha, hs⟩ := Bool.or_eq_false_iff.mp hfl2
      have hb1 : (autofill b p).1 = b := autofill_false b p ha
      have hsf : (strats.foldl (stratStep p) ((autofill b p).1, false)).2 = false := hs
      obtain ⟨hfold, _⟩ := stratFold_false p strats ((autofill b p).1, false) hcontract hsf
      have hB2 : (strategiesApplied strats p (autofill b p).1).1 = b := by
        show (strats.foldl (stratStep p) ((autofill b p).1, false)).1 = b
        rw [hfold]; exact hb1
      rw [hB2] at h2
      rw [Cell.hasValue, h2] at hunfilled
      simp at hunfilled
    · intro q hq hunf
      exact propagate_T _ p w h2 q hq hunf

/-- Concrete run of the propagation theorem: auto-filling 5 at (0,0) strips
5 from the candidates of the unfilled row peer (0,1) and reports a change. -/
theorem sudoku_c4_witness :
    ((c4Board.cell ((0 : Fin 9), (0 : Fin 9))).hasValue = false ∧
      ((iterateCell [] c4Board ((0 : Fin 9), (0 : Fin 9))).1.cell
        ((0 : Fin 9), (0 : Fin 9))).value = some 5) ∧
    (iterateCell [] c4Board ((0 : Fin 9), (0 : Fin 9))).2 = true ∧
    5 ∉ ((iterateCell [] c4Board ((0 : Fin 9), (0 : Fin 9))).1.cell
      ((0 : Fin 9), (1 : Fin 9))).possibleValues :=
  ⟨⟨by decide, by decide⟩,
   (sudoku_c4_propagation [] c4Board ((0 : Fin 9), (0 : Fin 9)) 5 (by simp)
     (by decide) (by decide)).1,
   (sudoku_c4_propagation [] c4Board ((0 : Fin 9), (0 : Fin 9)) 5 (by simp)
     (by decide) (by decide)).2 ((0 : Fin 9), (1 : Fin 9)) (by decide) (by decide)⟩

theorem foldl_min_split {α : Type} (k : α → Nat) :
    ∀ (l : List α) (a : α),
      ∃ l1 l2, a :: l = l1 ++ (l.foldl (fun x y => if k x < k y then x else y) a) :: l2 ∧
        (∀ z ∈ l1, k (l.foldl (fun x y => if k x < k y then x else y) a) ≤ k z) ∧
        (∀ z ∈ l2, k (l.foldl (fun x y => if k x < k y then x else y) a) < k z) := by
  intro l
  induction l with
  | nil =>
    intro a
    exact ⟨[], [], rfl, by simp, by simp⟩
  | cons y t ih =>
    intro a
    rw [List.foldl_cons]
    by_cases hk : k a < k y
    · rw [if_pos hk]
      obtain ⟨s1, s2, hsplit, hle, hlt⟩ := ih a
      cases s1 with
      | nil =>
        rw [List.nil_append] at hsplit
        injection hsplit with h1 h2
        refine ⟨[], y :: s2, ?_, by simp, ?_⟩
        · rw [List.nil_append, ← h1, h2]
        · intro z hz
          rcases List.mem_cons.mp hz with hz | hz
          · subst hz; rw [← h1]; exact hk
          · exact hlt z hz
      | cons b1 s1' =>
        rw [List.cons_append] at hsplit
        injection hsplit with h1 h2
        have hra : k (t.foldl (fun x y => if k x < k y then x else y) a) ≤ k a := by
          have := hle b1 (List.mem_cons_self _ _)
          rw [← h1] at this
          exact this
        refine ⟨a :: y :: s1', s2, ?_, ?_, hlt⟩
        · rw [List.cons_append, List.cons_append, ← h2]
        · intro z hz
          rcases List.mem_cons.mp hz with hz | hz
          · subst hz; exact hra
          · rcases List.mem_cons.mp hz with hz | hz
            · subst hz
              exact Nat.le_of_lt (Nat.lt_of_le_of_lt hra hk)
            · exact hle z (List.mem_cons_of_mem _ hz)
    · rw [if_neg hk]
      obtain ⟨s1, s2, hsplit, hle, hlt⟩ := ih y
      cases s1 with
      | nil =>
        rw [List.nil_append] at hsplit
        injection hsplit with h1 h2
        refine ⟨[a], s2, ?_, ?_, hlt⟩
        · rw [List.cons_append, ← h1, h2, List.nil_append]
        · intro z hz
          rcases List.mem_cons.mp hz with hz | hz
          · subst hz
            rw [← h1]
            exact Nat.le_of_not_lt hk
          · exact absurd hz (List.not_mem_nil z)
      | cons b1 s1' =>
        rw [List.cons_append] at hsplit
        injection hsplit with h1 h2
        have hry : k (t.foldl (fun x y => if k x < k y then x else y) y) ≤ k y := by
          have := hle b1 (List.mem_cons_self _ _)
          rw [← h1] at this
          exact this
        refine ⟨a :: y :: s1', s2, ?_, ?_, hlt⟩
        · rw [List.cons_append, List.cons_append, ← h2]
        · intro z hz
          rcases List.mem_cons.mp hz with hz | hz
          · subst hz
            exact Nat.le_trans hry (Nat.le_of_not_lt hk)
          · rcases List.mem_cons.mp hz with hz | hz
            · subst hz; exact hry
            · exact hle z (List.mem_cons_of_mem _ hz)

theorem chooseCand_split (b : ClassicSudoku) (p0 : Pos) (rest : List Pos) :
    ∃ l1 l2, p0 :: rest = l1 ++ (chooseCand b p0 rest) :: l2 ∧
      (∀ z ∈ l1, pvLen b (chooseCand b p0 rest) ≤ pvLen b z) ∧
      (∀ z ∈ l2, pvLen b (chooseCand b p0 rest) < pvLen b z) := by
  unfold chooseCand
  exact foldl_min_split (pvLen b) rest p0

theorem guessStep_eq (s : EngineState) (p0 : Pos) (rest : List Pos)
    (hL : unfilledList s.board = p0 :: rest) :
    guessStep s =
      ({ s with
          board := s.board.setCell (chooseCand s.board p0 rest)
            ((s.board.cell (chooseCand s.board p0 rest)).fillOpt
              ((s.board.cell (chooseCand s.board p0 rest)).possibleValues.head?)),
          suggestions := s.suggestions ++
            [⟨s.board.clone, (chooseCand s.board p0 rest).1, (chooseCand s.board p0 rest).2,
              (s.board.cell (chooseCand s.board p0 rest)).possibleValues.head?⟩] },
       true,
       [Notif.suggestMsg (chooseCand s.board p0 rest).1 (chooseCand s.board p0 rest).2
          ((s.board.cell (chooseCand s.board p0 rest)).possibleValues.head?)]) := by
  unfold guessStep
  rw [hL]

/-- C3 counterexample: on a board whose only unfilled cells are (0,0) and
(0,1), both with two candidates, the reduce-based selection pushes the guess
at the LATER cell (0,1): the accumulator is kept only on strictly fewer
candidates, so a tie moves the selection forward, refuting the claim that
the first minimal cell in row-major order is selected. -/
theorem sudoku_c3_counterexample :
    unfilledList c3State.board = [((0 : Fin 9), (0 : Fin 9)), ((0 : Fin 9), (1 : Fin 9))] ∧
    pvLen c3State.board ((0 : Fin 9), (0 : Fin 9)) =
      pvLen c3State.board ((0 : Fin 9), (1 : Fin 9)) ∧
    ((guessStep c3State).1.suggestions.map (fun x => (x.row, x.col, x.number))) =
      [((0 : Fin 9), (1 : Fin 9), some 1)] ∧
    ¬ ((0 : Fin 9), (1 : Fin 9)) = (((0 : Fin 9), (0 : Fin 9)) : Pos) := by decide

/-- C3 (amended): when a pass produced no change on an unsolved board, the
guessing fallback selects, among the unfilled cells in row-major order, the
LAST cell whose candidate count is minimal (the reduce keeps the earlier
cell only on a strictly smaller count, so ties move the selection to the
later cell); it takes that cell's smallest candidate as the guess (the head
of its sorted candidate list), pushes the hypothesis (clone snapshot, the
cell's coordinates, the guess) and then assigns the guess, reporting a
change. -/
theorem sudoku_c3_guess_last_minimal (s : EngineState) (p0 : Pos) (rest : List Pos) (v : Nat)
    (hL : unfilledList s.board = p0 :: rest)
    (hhead : ((s.board.cell (chooseCand s.board p0 rest)).possibleValues).head? = some v)
    (hsorted : List.Sorted (· ≤ ·)
      ((s.board.cell (chooseCand s.board p0 rest)).possibleValues)) :
    (∃ l1 l2, unfilledList s.board = l1 ++ (chooseCand s.board p0 rest) :: l2 ∧
      (∀ z ∈ l1, pvLen s.board (chooseCand s.board p0 rest) ≤ pvLen s.board z) ∧
      (∀ z ∈ l2, pvLen s.board (chooseCand s.board p0 rest) < pvLen s.board z)) ∧
    (v ∈ (s.board.cell (chooseCand s.board p0 rest)).possibleValues ∧
      ∀ w ∈ (s.board.cell (chooseCand s.board p0 rest)).possibleValues, v ≤ w) ∧
    (guessStep s).1.suggestions =
      s.suggestions ++ [⟨s.board.clone, (chooseCand s.board p0 rest).1,
        (chooseCand s.board p0 rest).2, some v⟩] ∧
    (guessStep s).1.board =
      s.board.setCell (chooseCand s.board p0 rest)
        ((s.board.cell (chooseCand s.board p0 rest)).fillOpt (some v)) ∧
    (guessStep s).2.1 = true := by
  have hG := guessStep_eq s p0 rest hL
  have hmin : v ∈ (s.board.cell (chooseCand s.board p0 rest)).possibleValues ∧
      ∀ w ∈ (s.board.cell (chooseCand s.board p0 rest)).possibleValues, v ≤ w := by
    rcases hpv : (s.board.cell (chooseCand s.board p0 rest)).possibleValues with _ | ⟨x, xs⟩
    · rw [hpv] at hhead; simp at hhead
    · rw [hpv] at hhead hsorted
      have hx : x = v := by simpa using hhead
      subst hx
      obtain ⟨hall, _⟩ := List.sorted_cons.mp hsorted
      exact ⟨List.mem_cons_self _ _, fun w hw => by
        rcases List.mem_cons.mp hw with hw | hw
        · rw [hw]
        · exact hall w hw⟩
  refine ⟨?_, hmin, ?_, ?_, ?_⟩
  · rw [hL]
    exact chooseCand_split s.board p0 rest
  · rw [hG, hhead]
  · rw [hG, hhead]
  · rw [hG]

/-- Concrete run of the amended guess theorem: on the tie board the fallback
reports a change. -/
theorem sudoku_c3_guess_witness :
    (unfilledList c3State.board = [((0 : Fin 9), (0 : Fin 9)), ((0 : Fin 9), (1 : Fin 9))] ∧
      ((c3State.board.cell (chooseCand c3State.board ((0 : Fin 9), (0 : Fin 9))
        [((0 : Fin 9), (1 : Fin 9))])).possibleValues).head? = some 1) ∧
    (guessStep c3State).2.1 = true :=
  ⟨⟨by decide, by decide⟩,
   (sudoku_c3_guess_last_minimal c3State ((0 : Fin 9), (0 : Fin 9))
     [((0 : Fin 9), (1 : Fin 9))] 1 (by decide) (by decide) (by decide)).2.2.2.2⟩

end Theorems

end SudokuModel
